import Mathlib

/-!
Verification of the cargo-shell command dispatcher and toolchain state
machine (src/lib.rs of pwoolcoc/cargo-shell).

Rust strings are modelled as `List Char`; the session state `Config`, the
subprocess `Invocation` and the dispatcher `dispatch_cmd` are shallow
embeddings of the corresponding items in src/lib.rs.  External effects
(whether a spawned process could be started, whether cargo-watch is
available, the contents of the file system) are supplied by an `Env`
oracle.  `dispatch_cmd` returns `none` exactly when one of the Rust
slice/index operations (`cmd[2..]`, `parts[0]`, ...) would be out of
bounds; every other behaviour is modelled totally.
-/

set_option maxRecDepth 10000

namespace CargoShell

/-- Abbreviation turning a Lean string literal into the `List Char` model
of a Rust string. -/
def str (s : String) : List Char := s.data

/-- Whitespace test used to model Rust `str::trim`. -/
def isWs (c : Char) : Bool := c.isWhitespace

/-- Model of Rust `str::trim_start`: drop leading whitespace. -/
def trimStart (l : List Char) : List Char := l.dropWhile isWs

/-- Model of dropping trailing whitespace (`str::trim_end`). -/
def trimEnd (l : List Char) : List Char := ((l.reverse).dropWhile isWs).reverse

/-- Model of Rust `str::trim` (drop whitespace at both ends). -/
def trimStr (l : List Char) : List Char := trimEnd (trimStart l)

/-- Quote characters stripped by the `p ` branch of `dispatch_cmd`
(`'"'`, coded 34, and the single quote, coded 39). -/
def isQuote (c : Char) : Bool := (c == Char.ofNat 34) || (c == Char.ofNat 39)

/-- Model of `trim_matches(|c| c == '"' || c == '\x27')` in the `p `
branch: strip quote characters from both ends. -/
def trimQuotes (l : List Char) : List Char :=
  (((l.dropWhile isQuote).reverse).dropWhile isQuote).reverse

/-- Model of Rust `str::split(' ')`: split on every single space keeping
empty tokens; the result is never empty (splitting `""` gives `[""]`). -/
def splitSp : List Char → List (List Char)
  | [] => [[]]
  | c :: rest =>
    match splitSp rest with
    | [] => [[c]]
    | h :: t => if c = ' ' then [] :: h :: t else (c :: h) :: t

/-- Scanner implementing Rust `String::replace`: at each position, when
the pattern matches, emit the replacement and skip the matched
characters (a positive first argument counts characters still to skip);
occurrences are non-overlapping and found left to right. -/
def replScan (pat rep : List Char) : Nat → List Char → List Char
  | _, [] => []
  | k + 1, _ :: rest => replScan pat rep k rest
  | 0, c :: rest =>
    if pat.isPrefixOf (c :: rest) then
      rep ++ replScan pat rep (pat.length - 1) rest
    else
      c :: replScan pat rep 0 rest

/-- Model of Rust `String::replace(pat, rep)` (the patterns used by the
source are all non-empty). -/
def replaceAll (s pat rep : List Char) : List Char := replScan pat rep 0 s

/-- Model of the `Config` struct of src/lib.rs (lines 48-57): the session
state of the shell. -/
structure Config where
  prompt : List Char
  rustup : List Char
  name : List Char
  version : List Char
  default_toolchain : List Char
  toolchains : List (List Char)
  current_toolchain : List Char
  cwd : List Char
deriving DecidableEq

/-- Model of `Config::get_prompt` (src/lib.rs lines 70-76): substitute
the three placeholders by three successive `String::replace` calls, in
the order `{project}`, `{version}`, `{toolchain}`. -/
def Config.get_prompt (c : Config) : List Char :=
  replaceAll
    (replaceAll (replaceAll c.prompt (str "{project}") c.name)
      (str "{version}") c.version)
    (str "{toolchain}") c.current_toolchain

/-- One spawned subprocess: executable, argument list and working
directory, exactly the data `run` (src/lib.rs lines 252-266) passes to
`Command`. -/
structure Invocation where
  exe : List Char
  args : List (List Char)
  cwd : List Char
deriving DecidableEq

/-- The invocation built by `run` (src/lib.rs lines 252-266):
`<rustup> run <default_toolchain> cargo <cmd...>` in the session's
working directory.  Note the source passes `config.default_toolchain`
(line 259), not `config.current_toolchain`. -/
def mkInvocation (config : Config) (cmd : List (List Char)) : Invocation :=
  { exe := config.rustup
    args := str "run" :: config.default_toolchain :: str "cargo" :: cmd
    cwd := config.cwd }

/-- External-world oracle: whether `cargo watch --help` succeeds, whether
the i-th spawn of a dispatch could be started (`run` only fails when the
process cannot be spawned; a non-zero exit status is discarded by
`let _ = ...`), and the lines of each readable file. -/
structure Env where
  hasCargoWatch : Bool
  runOk : Nat → Bool
  fs : List Char → Option (List (List Char))

/-- How a dispatch ended: process exit (`exit`/`quit`), normal return, or
an error propagated to the REPL loop. -/
inductive Outcome where
  | exited
  | ok
  | errored
deriving DecidableEq

/-- Observable result of one dispatch: the updated session state, the
invocations attempted in order, the argument vectors the batch branch
parsed (and only printed), and how the dispatch ended. -/
structure DispatchResult where
  config : Config
  invocations : List Invocation
  batch : List (List (List Char))
  outcome : Outcome
deriving DecidableEq

/-- The loop of the `<` branch (src/lib.rs lines 206-215): trim each
line, skip it when empty or starting with `#`, otherwise split it on
single spaces; the vectors are only printed, never executed (the
`run` call is commented out). -/
def processBatch : List (List Char) → List (List (List Char))
  | [] => []
  | line :: rest =>
    let l := trimStr line
    if l = [] ∨ (str "#").isPrefixOf l then processBatch rest
    else splitSp l :: processBatch rest

/-- Checked model of the Rust slice `cmd[n..]`, which panics when `n` is
out of bounds. -/
def dropChecked (l : List Char) (n : Nat) : Option (List Char) :=
  if n ≤ l.length then some (l.drop n) else none

/-- The loop of the `+` branch (src/lib.rs lines 232-240): for each
configured toolchain set the override and run the command; the `?` on
`run` aborts the loop at the first spawn failure, skipping the final
restore of the saved override, which only happens after a complete
loop. -/
def fanOut (env : Env) (config : Config) (original : List Char)
    (args : List (List Char)) : List (List Char) → Nat → DispatchResult
  | [], _ => ⟨{ config with current_toolchain := original }, [], [], .ok⟩
  | t :: ts, idx =>
    let config1 := { config with current_toolchain := t }
    let inv := mkInvocation config1 args
    if env.runOk idx then
      let r := fanOut env config1 original args ts (idx + 1)
      { r with invocations := inv :: r.invocations }
    else
      ⟨config1, [inv], [], .errored⟩

/-- Model of `dispatch_cmd` (src/lib.rs lines 169-246).  The branches are
tried in source order on the already-trimmed line.  The result is `none`
exactly when a Rust slice or `parts[0]` access would be out of
bounds. -/
def dispatch_cmd (env : Env) (config : Config) (cmd : List Char) :
    Option DispatchResult :=
  if cmd = str "exit" ∨ cmd = str "quit" then
    some ⟨config, [], [], .exited⟩
  else if cmd = str "help" then
    some ⟨config, [], [], .ok⟩
  else if (str "p ").isPrefixOf cmd then
    (dropChecked cmd 2).map fun rest =>
      ⟨{ config with prompt := trimQuotes rest }, [], [], .ok⟩
  else if (str "~").isPrefixOf cmd then
    (dropChecked cmd 1).map fun rest =>
      if env.hasCargoWatch then
        ⟨config, [mkInvocation config (str "watch" :: splitSp (trimStr rest))], [],
          if env.runOk 0 then .ok else .errored⟩
      else
        ⟨config, [], [], .ok⟩
  else if (str "<").isPrefixOf cmd then
    (dropChecked cmd 1).map fun rest =>
      match env.fs (trimStr rest) with
      | none => ⟨config, [], [], .errored⟩
      | some lines => ⟨config, [], processBatch lines, .ok⟩
  else if (str "++").isPrefixOf cmd then
    (dropChecked cmd 2).bind fun rest =>
      let parts := splitSp (trimStr rest)
      parts.head?.map fun p0 =>
        let version := trimStr p0
        let original := config.current_toolchain
        let config1 := { config with current_toolchain := version }
        if parts.length > 1 then
          if env.runOk 0 then
            ⟨{ config1 with current_toolchain := original },
              [mkInvocation config1 parts.tail], [], .ok⟩
          else
            ⟨config1, [mkInvocation config1 parts.tail], [], .errored⟩
        else
          ⟨config1, [], [], .ok⟩
  else if (str "+").isPrefixOf cmd then
    (dropChecked cmd 1).map fun rest =>
      fanOut env config config.current_toolchain (splitSp (trimStr rest))
        config.toolchains 0
  else
    some ⟨config, [mkInvocation config (splitSp cmd)], [],
      if env.runOk 0 then .ok else .errored⟩

/-- Fixture configuration used by the concrete theorems. -/
def cfg0 : Config :=
  { prompt := str ">> "
    rustup := str "rustup"
    name := str "demo"
    version := str "0.1.0"
    default_toolchain := str "stable"
    toolchains := [str "stable", str "nightly"]
    current_toolchain := str "stable"
    cwd := str "." }

/-- Environment in which every spawn succeeds, cargo-watch is absent and
no file exists. -/
def envOk : Env := ⟨false, fun _ => true, fun _ => none⟩

/-- Environment in which every spawn fails. -/
def envFail : Env := ⟨false, fun _ => false, fun _ => none⟩

/-- Environment in which only the first spawn of a dispatch succeeds. -/
def envFirstOnly : Env := ⟨false, fun n => n == 0, fun _ => none⟩


/-! Helper lemmas: literal evaluations and branch lemmas for
`dispatch_cmd`. -/

theorem str_exit_eq : str "exit" = ['e', 'x', 'i', 't'] := rfl

theorem str_quit_eq : str "quit" = ['q', 'u', 'i', 't'] := rfl

theorem str_help_eq : str "help" = ['h', 'e', 'l', 'p'] := rfl

theorem str_pSpace_eq : str "p " = ['p', ' '] := rfl

theorem str_tilde_eq : str "~" = ['~'] := rfl

theorem str_lt_eq : str "<" = ['<'] := rfl

theorem str_pp_eq : str "++" = ['+', '+'] := rfl

theorem str_plus_eq : str "+" = ['+'] := rfl

theorem str_hash_eq : str "#" = ['#'] := rfl

/-- A `++` prefix is in particular a `+` prefix. -/
theorem pp_isPrefixOf_imp_plus (cmd : List Char)
    (h : (str "++").isPrefixOf cmd = true) : (str "+").isPrefixOf cmd = true := by
  cases cmd with
  | nil => simp [str_pp_eq, List.isPrefixOf] at h
  | cons c rest =>
    simp [str_pp_eq, List.isPrefixOf] at h
    simp [str_plus_eq, List.isPrefixOf]
    exact h.1

/-- Boolean prefix test versus the propositional relation. -/
theorem isPrefixOf_true_iff {l₁ l₂ : List Char} :
    l₁.isPrefixOf l₂ = true ↔ l₁ <+: l₂ :=
  List.isPrefixOf_iff_prefix

/-- A successful `isPrefixOf` exposes the shape of the list. -/
theorem isPrefixOf_shape {pre cmd : List Char} (h : pre.isPrefixOf cmd = true) :
    ∃ t, cmd = pre ++ t := by
  obtain ⟨t, ht⟩ := isPrefixOf_true_iff.mp h
  exact ⟨t, ht.symm⟩

/-- The update of the current toolchain does not change the invocation
`run` builds, because `run` reads `default_toolchain` (src/lib.rs line
259). -/
theorem mkInvocation_current (config : Config) (t : List Char)
    (args : List (List Char)) :
    mkInvocation { config with current_toolchain := t } args =
      mkInvocation config args := rfl

/-- Branch lemma: `help` prints the usage text and changes nothing. -/
theorem dispatch_cmd_help (env : Env) (config : Config) :
    dispatch_cmd env config (str "help") = some ⟨config, [], [], .ok⟩ := rfl

/-- Branch lemma: the `p ` branch stores the quote-trimmed remainder as
the new prompt. -/
theorem dispatch_cmd_p (env : Env) (config : Config) (rest : List Char) :
    dispatch_cmd env config ('p' :: ' ' :: rest) =
      some ⟨{ config with prompt := trimQuotes rest }, [], [], .ok⟩ := by
  have h1 : ¬(('p' :: ' ' :: rest) = str "exit" ∨ ('p' :: ' ' :: rest) = str "quit") := by
    simp [str_exit_eq, str_quit_eq]
  have h2 : ('p' :: ' ' :: rest) ≠ str "help" := by simp [str_help_eq]
  have h3 : (str "p ").isPrefixOf ('p' :: ' ' :: rest) = true := by
    simp [str_pSpace_eq, List.isPrefixOf]
  simp [dispatch_cmd, h1, h2, h3, dropChecked]

/-- Branch lemma: the `~` branch probes for cargo-watch and, when it is
available, runs `watch` plus the split remainder; the session state is
unchanged either way. -/
theorem dispatch_cmd_tilde (env : Env) (config : Config) (rest : List Char) :
    dispatch_cmd env config ('~' :: rest) =
      some (if env.hasCargoWatch then
              ⟨config, [mkInvocation config (str "watch" :: splitSp (trimStr rest))], [],
                if env.runOk 0 then .ok else .errored⟩
            else ⟨config, [], [], .ok⟩) := by
  have h1 : ¬(('~' :: rest) = str "exit" ∨ ('~' :: rest) = str "quit") := by
    simp [str_exit_eq, str_quit_eq]
  have h2 : ('~' :: rest) ≠ str "help" := by simp [str_help_eq]
  have h3 : (str "p ").isPrefixOf ('~' :: rest) = false := rfl
  have h4 : (str "~").isPrefixOf ('~' :: rest) = true := by
    simp [str_tilde_eq, List.isPrefixOf]
  simp [dispatch_cmd, h1, h2, h3, h4, dropChecked]

/-- Branch lemma: the `<` branch with a readable file parses the lines
and mutates nothing. -/
theorem dispatch_cmd_file (env : Env) (config : Config) (rest : List Char)
    (lines : List (List Char)) (hfs : env.fs (trimStr rest) = some lines) :
    dispatch_cmd env config ('<' :: rest) =
      some ⟨config, [], processBatch lines, .ok⟩ := by
  have h1 : ¬(('<' :: rest) = str "exit" ∨ ('<' :: rest) = str "quit") := by
    simp [str_exit_eq, str_quit_eq]
  have h2 : ('<' :: rest) ≠ str "help" := by simp [str_help_eq]
  have h3 : (str "p ").isPrefixOf ('<' :: rest) = false := rfl
  have h4 : (str "~").isPrefixOf ('<' :: rest) = false := rfl
  have h5 : (str "<").isPrefixOf ('<' :: rest) = true := by
    simp [str_lt_eq, List.isPrefixOf]
  simp [dispatch_cmd, h1, h2, h3, h4, h5, dropChecked, hfs]

/-- Branch lemma: the `++` branch, with the split of the trimmed
remainder exposed.  With a trailing command the saved override is
restored only on the success path; without one the switch persists. -/
theorem dispatch_cmd_pp (env : Env) (config : Config) (rest p0 : List Char)
    (ps : List (List Char)) (hsplit : splitSp (trimStr rest) = p0 :: ps) :
    dispatch_cmd env config ('+' :: '+' :: rest) =
      some (if 0 < ps.length then
              if env.runOk 0 then
                ⟨config, [mkInvocation config ps], [], .ok⟩
              else
                ⟨{ config with current_toolchain := trimStr p0 },
                  [mkInvocation config ps], [], .errored⟩
            else
              ⟨{ config with current_toolchain := trimStr p0 }, [], [], .ok⟩) := by
  have h1 : ¬(('+' :: '+' :: rest) = str "exit" ∨ ('+' :: '+' :: rest) = str "quit") := by
    simp [str_exit_eq, str_quit_eq]
  have h2 : ('+' :: '+' :: rest) ≠ str "help" := by simp [str_help_eq]
  have h3 : (str "p ").isPrefixOf ('+' :: '+' :: rest) = false := rfl
  have h4 : (str "~").isPrefixOf ('+' :: '+' :: rest) = false := rfl
  have h5 : (str "<").isPrefixOf ('+' :: '+' :: rest) = false := rfl
  have h6 : (str "++").isPrefixOf ('+' :: '+' :: rest) = true := by
    simp [str_pp_eq, List.isPrefixOf]
  have hlen : ((p0 :: ps).length > 1) = (0 < ps.length) := by
    simp [Nat.succ_lt_succ_iff]
  have hdc : dropChecked ('+' :: '+' :: rest) 2 = some rest := by
    simp [dropChecked]
  simp [dispatch_cmd, h1, h2, h3, h4, h5, h6, hdc, hsplit, hlen,
    mkInvocation_current]

/-- Branch lemma: the single `+` branch fans out over the configured
toolchains. -/
theorem dispatch_cmd_plus (env : Env) (config : Config) (rest : List Char)
    (hpp : (str "++").isPrefixOf ('+' :: rest) = false) :
    dispatch_cmd env config ('+' :: rest) =
      some (fanOut env config config.current_toolchain (splitSp (trimStr rest))
        config.toolchains 0) := by
  have h1 : ¬(('+' :: rest) = str "exit" ∨ ('+' :: rest) = str "quit") := by
    simp [str_exit_eq, str_quit_eq]
  have h2 : ('+' :: rest) ≠ str "help" := by simp [str_help_eq]
  have h3 : (str "p ").isPrefixOf ('+' :: rest) = false := rfl
  have h4 : (str "~").isPrefixOf ('+' :: rest) = false := rfl
  have h5 : (str "<").isPrefixOf ('+' :: rest) = false := rfl
  have h6 : (str "+").isPrefixOf ('+' :: rest) = true := by
    simp [str_plus_eq, List.isPrefixOf]
  simp [dispatch_cmd, h1, h2, h3, h4, h5, hpp, h6, dropChecked]

/-- Branch lemma: a line matching no recognized prefix is split on
spaces and run directly. -/
theorem dispatch_cmd_plain (env : Env) (config : Config) (cmd : List Char)
    (h1 : cmd ≠ str "exit") (h2 : cmd ≠ str "quit") (h3 : cmd ≠ str "help")
    (h4 : (str "p ").isPrefixOf cmd = false)
    (h5 : (str "~").isPrefixOf cmd = false)
    (h6 : (str "<").isPrefixOf cmd = false)
    (h7 : (str "+").isPrefixOf cmd = false) :
    dispatch_cmd env config cmd =
      some ⟨config, [mkInvocation config (splitSp cmd)], [],
        if env.runOk 0 then .ok else .errored⟩ := by
  have hpp : (str "++").isPrefixOf cmd = false := by
    cases hh : (str "++").isPrefixOf cmd with
    | false => rfl
    | true => rw [pp_isPrefixOf_imp_plus cmd hh] at h7; exact absurd h7 (by simp)
  simp [dispatch_cmd, h1, h2, h3, h4, h5, h6, h7, hpp]

/-! Support lemmas about trimming, splitting and the fan-out loop. -/

/-- The head surviving a `dropWhile` fails the predicate. -/
theorem dropWhile_head_false {p : Char → Bool} {l m : List Char} {c : Char}
    (h : l.dropWhile p = c :: m) : p c = false := by
  induction l with
  | nil => simp at h
  | cons a t ih =>
    rw [List.dropWhile_cons] at h
    by_cases hp : p a = true
    · rw [if_pos hp] at h; exact ih h
    · rw [if_neg hp] at h
      injection h with h1 _
      subst h1
      simpa using hp

/-- A trim of the right end gives the empty string only on all-whitespace
input. -/
theorem trimEnd_eq_nil_iff (l : List Char) :
    trimEnd l = [] ↔ ∀ c ∈ l, isWs c = true := by
  simp [trimEnd, List.dropWhile_eq_nil_iff]

/-- Trimming a string gives the empty string exactly when the string is
all whitespace. -/
theorem trimStr_eq_nil_iff (l : List Char) :
    trimStr l = [] ↔ ∀ c ∈ l, isWs c = true := by
  constructor
  · intro h c hc
    have h1 := (trimEnd_eq_nil_iff (trimStart l)).mp h
    have hsplit : l.takeWhile isWs ++ l.dropWhile isWs = l :=
      List.takeWhile_append_dropWhile isWs l
    have hc2 : c ∈ l.takeWhile isWs ++ l.dropWhile isWs := by rw [hsplit]; exact hc
    rcases List.mem_append.mp hc2 with h2 | h2
    · exact List.mem_takeWhile_imp h2
    · exact h1 c h2
  · intro h
    rw [trimStr, trimEnd_eq_nil_iff]
    intro c hc
    exact h c ((List.dropWhile_suffix isWs).sublist.subset hc)

/-- The right trim is a prefix of its input. -/
theorem trimEnd_isPrefixL (k : List Char) : trimEnd k <+: k := by
  have hs : k.reverse.dropWhile isWs <:+ k.reverse := List.dropWhile_suffix isWs
  obtain ⟨t, ht⟩ := hs
  exact ⟨t.reverse, by rw [trimEnd, ← List.reverse_append, ht, List.reverse_reverse]⟩

/-- The first character of a trimmed string is not whitespace. -/
theorem trimStr_head_not_ws {l m : List Char} {c : Char} (h : trimStr l = c :: m) :
    isWs c = false := by
  have hp : trimEnd (trimStart l) <+: trimStart l := trimEnd_isPrefixL _
  rw [trimStr] at h
  rw [h] at hp
  obtain ⟨u, hu⟩ := hp
  have h2 : l.dropWhile isWs = c :: (m ++ u) := by
    rw [← List.cons_append]; exact hu.symm
  exact dropWhile_head_false h2

/-- A string that is fixed by trimming does not end in whitespace. -/
theorem trimmed_no_trailing_ws {l init : List Char} {c : Char}
    (hfix : trimStr l = l) (hconcat : l = init ++ [c]) : isWs c = false := by
  have hl1 : (trimEnd (trimStart l)).length ≤ (trimStart l).length :=
    (trimEnd_isPrefixL _).length_le
  have hl2 : (trimStart l).length ≤ l.length :=
    (List.dropWhile_suffix isWs : trimStart l <:+ l).length_le
  have hlen : (trimEnd (trimStart l)).length = l.length := congrArg List.length hfix
  have hstart : trimStart l = l := by
    have h4 : (trimStart l).length = l.length := by omega
    exact (List.dropWhile_suffix isWs : trimStart l <:+ l).eq_of_length h4
  have hend : trimEnd l = l := by
    have : trimEnd (trimStart l) = l := hfix
    rwa [hstart] at this
  rw [trimEnd] at hend
  have hrev : l.reverse.dropWhile isWs = l.reverse := by
    have h3 := congrArg List.reverse hend
    rwa [List.reverse_reverse] at h3
  rw [hconcat, List.reverse_append] at hrev
  simp only [List.reverse_cons, List.reverse_nil, List.nil_append,
    List.singleton_append] at hrev
  exact dropWhile_head_false hrev

/-- `split(' ')` never produces an empty token list. -/
theorem splitSp_ne_nil (l : List Char) : splitSp l ≠ [] := by
  cases l with
  | nil => simp [splitSp]
  | cons c rest =>
    rcases hs : splitSp rest with _ | ⟨h, t⟩
    · simp [splitSp, hs]
    · by_cases hc : c = ' ' <;> simp [splitSp, hs, hc]

/-- Splitting a list that starts with a non-space puts that character at
the head of the first token. -/
theorem splitSp_cons_head {c : Char} (hc : ¬ c = ' ') (l : List Char) :
    ∃ h t, splitSp (c :: l) = (c :: h) :: t ∧ splitSp l = h :: t := by
  rcases hs : splitSp l with _ | ⟨h, t⟩
  · exact absurd hs (splitSp_ne_nil l)
  · exact ⟨h, t, by simp [splitSp, hs, hc], rfl⟩

/-- Updating the toolchain override twice keeps only the second update. -/
theorem config_update_update (c : Config) (x y : List Char) :
    ({ { c with current_toolchain := x } with current_toolchain := y } : Config) =
      { c with current_toolchain := y } := rfl

/-- Writing back the unchanged override is the identity. -/
theorem config_update_self (c : Config) :
    ({ c with current_toolchain := c.current_toolchain } : Config) = c := rfl

/-- The override after the fan-out loop is either the saved original or
one of the visited toolchains. -/
theorem fanOut_current (env : Env) (args : List (List Char)) :
    ∀ (ts : List (List Char)) (config : Config) (original : List Char) (idx : Nat),
      (fanOut env config original args ts idx).config.current_toolchain = original ∨
      (fanOut env config original args ts idx).config.current_toolchain ∈ ts := by
  intro ts
  induction ts with
  | nil => intro config original idx; exact Or.inl rfl
  | cons t0 ts ih =>
    intro config original idx
    by_cases hr : env.runOk idx = true
    · have h := ih { config with current_toolchain := t0 } original (idx + 1)
      simp only [fanOut, hr, if_true]
      rcases h with h | h
      · exact Or.inl h
      · exact Or.inr (List.mem_cons_of_mem t0 h)
    · simp only [fanOut, hr, if_false]
      simp only [Bool.false_eq_true, if_false]
      exact Or.inr (List.mem_cons_self t0 ts)

/-- Index and toolchain of the first spawn failure of a fan-out, if
any. -/
def firstFailure (env : Env) : Nat → List (List Char) → Option (Nat × List Char)
  | _, [] => none
  | idx, t :: ts => if env.runOk idx then firstFailure env (idx + 1) ts else some (idx, t)

/-- The failure index found from start index `idx` is at least `idx`. -/
theorem firstFailure_ge (env : Env) :
    ∀ (ts : List (List Char)) (idx k : Nat) (t : List Char),
      firstFailure env idx ts = some (k, t) → idx ≤ k := by
  intro ts
  induction ts with
  | nil => intro idx k t h; simp [firstFailure] at h
  | cons t0 ts ih =>
    intro idx k t h
    by_cases hr : env.runOk idx = true
    · rw [firstFailure, if_pos hr] at h
      have := ih (idx + 1) k t h
      omega
    · rw [firstFailure, if_neg hr] at h
      simp at h
      omega

/-- Complete characterisation of the fan-out loop: one invocation per
toolchain until the first spawn failure; the saved override is restored
only when every spawn succeeded, otherwise the override is left at the
failing toolchain. -/
theorem fanOut_spec (env : Env) (args : List (List Char)) :
    ∀ (ts : List (List Char)) (config : Config) (original : List Char) (idx : Nat),
      fanOut env config original args ts idx =
        match firstFailure env idx ts with
        | none => ⟨{ config with current_toolchain := original },
            List.replicate ts.length (mkInvocation config args), [], .ok⟩
        | some (k, t) => ⟨{ config with current_toolchain := t },
            List.replicate (k - idx + 1) (mkInvocation config args), [], .errored⟩ := by
  intro ts
  induction ts with
  | nil => intro config original idx; rfl
  | cons t0 ts ih =>
    intro config original idx
    by_cases hr : env.runOk idx = true
    · have hff : firstFailure env idx (t0 :: ts) = firstFailure env (idx + 1) ts := by
        rw [firstFailure, if_pos hr]
      rw [hff]
      have hlhs : fanOut env config original args (t0 :: ts) idx =
          { fanOut env { config with current_toolchain := t0 } original args ts (idx + 1)
            with invocations := mkInvocation config args ::
              (fanOut env { config with current_toolchain := t0 } original args ts
                (idx + 1)).invocations } := by
        simp [fanOut, hr, mkInvocation_current]
      rw [hlhs, ih { config with current_toolchain := t0 } original (idx + 1)]
      rcases hf : firstFailure env (idx + 1) ts with _ | ⟨k, t⟩
      · simp [List.replicate_succ, mkInvocation_current, config_update_update]
      · have hk := firstFailure_ge env ts (idx + 1) k t hf
        have hcount : k - idx + 1 = (k - (idx + 1) + 1) + 1 := by omega
        simp [hcount, List.replicate_succ, mkInvocation_current, config_update_update]
    · have hff : firstFailure env idx (t0 :: ts) = some (idx, t0) := by
        rw [firstFailure, if_neg hr]
      rw [hff]
      simp [fanOut, hr, mkInvocation_current]

/-- Every invocation attempted by the fan-out loop is the one `run`
builds from the entry state and the split arguments. -/
theorem fanOut_invocations_shape (env : Env) (args : List (List Char)) :
    ∀ (ts : List (List Char)) (config : Config) (original : List Char) (idx : Nat),
      ∀ inv ∈ (fanOut env config original args ts idx).invocations,
        inv = mkInvocation config args := by
  intro ts
  induction ts with
  | nil => intro config original idx inv h; simp [fanOut] at h
  | cons t0 ts ih =>
    intro config original idx inv h
    by_cases hr : env.runOk idx = true
    · simp only [fanOut, hr, if_true] at h
      rcases List.mem_cons.mp h with h1 | h1
      · rw [h1]; exact mkInvocation_current config t0 args
      · have := ih { config with current_toolchain := t0 } original (idx + 1) inv h1
        rw [this]; exact mkInvocation_current config t0 args
    · simp only [fanOut, hr, if_false] at h
      simp only [Bool.false_eq_true, if_false] at h
      rcases List.mem_cons.mp h with h1 | h1
      · rw [h1]; exact mkInvocation_current config t0 args
      · simp at h1

/-- The invocations attempted by the fan-out loop do not depend on the
incoming override or on the saved original. -/
theorem fanOut_invocations_congr (env : Env) (args : List (List Char)) :
    ∀ (ts : List (List Char)) (config : Config) (x y o1 o2 : List Char) (idx : Nat),
      (fanOut env { config with current_toolchain := x } o1 args ts idx).invocations =
      (fanOut env { config with current_toolchain := y } o2 args ts idx).invocations := by
  intro ts
  induction ts with
  | nil => intro config x y o1 o2 idx; rfl
  | cons t0 ts ih =>
    intro config x y o1 o2 idx
    by_cases hr : env.runOk idx = true
    · simp only [fanOut, hr, if_true, config_update_update, mkInvocation_current]
      rw [List.cons_eq_cons]
      exact ⟨rfl, ih config t0 t0 o1 o2 (idx + 1)⟩
    · rw [Bool.not_eq_true] at hr
      simp only [fanOut, hr, Bool.false_eq_true, if_false, config_update_update,
        mkInvocation_current]

/-! Support lemmas for the prompt rendering. -/

/-- The opening brace character of a placeholder. -/
def lbrace : Char := Char.ofNat 123

/-- The closing brace character of a placeholder. -/
def rbrace : Char := Char.ofNat 125

theorem str_project_eq :
    str "{project}" =
      lbrace :: 'p' :: 'r' :: 'o' :: 'j' :: 'e' :: 'c' :: 't' :: [rbrace] := rfl

theorem str_version_eq :
    str "{version}" =
      lbrace :: 'v' :: 'e' :: 'r' :: 's' :: 'i' :: 'o' :: 'n' :: [rbrace] := rfl

theorem str_toolchain_eq :
    str "{toolchain}" =
      lbrace :: 't' :: 'o' :: 'o' :: 'l' :: 'c' :: 'h' :: 'a' :: 'i' :: 'n' :: [rbrace] := rfl

/-- A pattern with no occurrence in the input is never replaced. -/
theorem replScan_no_occurrence {pat : List Char} (rep : List Char) :
    ∀ s : List Char, ¬ (pat <:+: s) → replScan pat rep 0 s = s := by
  intro s
  induction s with
  | nil => intro _; rfl
  | cons c rest ih =>
    intro h
    have hp : pat.isPrefixOf (c :: rest) = false := by
      cases hb : pat.isPrefixOf (c :: rest) with
      | false => rfl
      | true => exact absurd ((isPrefixOf_true_iff.mp hb).isInfix) h
    rw [replScan, if_neg (by simp [hp])]
    have h2 : ¬ (pat <:+: rest) := fun hi => h (List.infix_cons_iff.mpr (Or.inr hi))
    rw [ih h2]

/-- A positive skip counter consumes exactly that many characters. -/
theorem replScan_skip (pat rep : List Char) :
    ∀ (l s : List Char), replScan pat rep l.length (l ++ s) = replScan pat rep 0 s := by
  intro l
  induction l with
  | nil => intro s; rfl
  | cons c t ih =>
    intro s
    simp only [List.cons_append, List.length_cons]
    rw [show replScan pat rep (t.length + 1) (c :: (t ++ s)) =
      replScan pat rep t.length (t ++ s) from rfl]
    exact ih s

/-- A brace-free segment scrolls past the scanner; at the first brace the
pattern matches, is consumed, and scanning resumes after it. -/
theorem replScan_match (p rep : List Char) :
    ∀ s₁ : List Char, (∀ c ∈ s₁, c ≠ lbrace) → ∀ s₂,
      replScan (lbrace :: p) rep 0 (s₁ ++ (lbrace :: p) ++ s₂) =
        s₁ ++ rep ++ replScan (lbrace :: p) rep 0 s₂ := by
  intro s₁
  induction s₁ with
  | nil =>
    intro _ s₂
    simp only [List.nil_append]
    have hpre : (lbrace :: p).isPrefixOf (lbrace :: (p ++ s₂)) = true :=
      isPrefixOf_true_iff.mpr (List.prefix_append (lbrace :: p) s₂)
    rw [List.cons_append]
    rw [show replScan (lbrace :: p) rep 0 (lbrace :: (p ++ s₂)) =
      if (lbrace :: p).isPrefixOf (lbrace :: (p ++ s₂)) then
        rep ++ replScan (lbrace :: p) rep ((lbrace :: p).length - 1) (p ++ s₂)
      else lbrace :: replScan (lbrace :: p) rep 0 (p ++ s₂) from rfl]
    rw [if_pos (by rw [hpre])]
    have hl : (lbrace :: p).length - 1 = p.length := by simp
    rw [hl]
    have hsk : replScan (lbrace :: p) rep p.length (p ++ s₂) =
        replScan (lbrace :: p) rep 0 s₂ := replScan_skip (lbrace :: p) rep p s₂
    rw [hsk]
  | cons c t ih =>
    intro hc s₂
    have hc0 : c ≠ lbrace := hc c (List.mem_cons_self c t)
    have hbeq : (lbrace == c) = false := by
      cases hb : lbrace == c with
      | false => rfl
      | true => exact absurd (beq_iff_eq.mp hb).symm hc0
    have hne : (lbrace :: p).isPrefixOf (c :: (t ++ ((lbrace :: p) ++ s₂))) = false := by
      simp [List.isPrefixOf]
      intro h
      exact absurd h.symm hc0
    have hct : ∀ x ∈ t, x ≠ lbrace := fun x hx => hc x (List.mem_cons_of_mem c hx)
    calc replScan (lbrace :: p) rep 0 ((c :: t) ++ (lbrace :: p) ++ s₂)
        = replScan (lbrace :: p) rep 0 (c :: (t ++ ((lbrace :: p) ++ s₂))) := by
          simp
      _ = c :: replScan (lbrace :: p) rep 0 (t ++ ((lbrace :: p) ++ s₂)) := by
          rw [show replScan (lbrace :: p) rep 0 (c :: (t ++ ((lbrace :: p) ++ s₂))) =
            if (lbrace :: p).isPrefixOf (c :: (t ++ ((lbrace :: p) ++ s₂))) then
              rep ++ replScan (lbrace :: p) rep ((lbrace :: p).length - 1)
                (t ++ ((lbrace :: p) ++ s₂))
            else c :: replScan (lbrace :: p) rep 0 (t ++ ((lbrace :: p) ++ s₂))
            from rfl]
          rw [if_neg (by rw [hne]; exact Bool.false_ne_true)]
      _ = c :: (t ++ rep ++ replScan (lbrace :: p) rep 0 s₂) := by
          rw [← List.append_assoc]
          rw [ih hct s₂]
      _ = (c :: t) ++ rep ++ replScan (lbrace :: p) rep 0 s₂ := by simp

/-- A brace-headed pattern cannot occur in a brace-free string. -/
theorem no_occurrence_in_braceless {s : List Char} (p : List Char)
    (hs : ∀ c ∈ s, c ≠ lbrace) : ¬ ((lbrace :: p) <:+: s) :=
  fun h => absurd rfl (hs lbrace (h.subset (List.mem_cons_self lbrace p)))

/-- Branch lemma: the `<` branch with an unreadable file reports an error
and mutates nothing. -/
theorem dispatch_cmd_file_err (env : Env) (config : Config) (rest : List Char)
    (hfs : env.fs (trimStr rest) = none) :
    dispatch_cmd env config ('<' :: rest) = some ⟨config, [], [], .errored⟩ := by
  have h1 : ¬(('<' :: rest) = str "exit" ∨ ('<' :: rest) = str "quit") := by
    simp [str_exit_eq, str_quit_eq]
  have h2 : ('<' :: rest) ≠ str "help" := by simp [str_help_eq]
  have h3 : (str "p ").isPrefixOf ('<' :: rest) = false := rfl
  have h4 : (str "~").isPrefixOf ('<' :: rest) = false := rfl
  have h5 : (str "<").isPrefixOf ('<' :: rest) = true := by
    simp [str_lt_eq, List.isPrefixOf]
  simp [dispatch_cmd, h1, h2, h3, h4, h5, dropChecked, hfs]

/-- Environment exposing one batch file named cmds.txt. -/
def envBatch : Env :=
  ⟨false, fun _ => true,
    fun p => if p = str "cmds.txt" then some [str "build --release"] else none⟩

/-! Claim theorems. -/

/-- C1: after dispatching "++ beta" the override becomes "beta" and it
persists across the next dispatch, but that later plain line "build" is
invoked as `rustup run stable cargo build` — the toolchain argument is
the session default "stable", not the override "beta" claimed by the
spec, because `run` (src/lib.rs line 259) reads `default_toolchain`. -/
theorem c1_override_persists_but_plain_line_runs_under_default :
    dispatch_cmd envOk cfg0 (str "++ beta") =
      some ⟨{ cfg0 with current_toolchain := str "beta" }, [], [], .ok⟩ ∧
    dispatch_cmd envOk { cfg0 with current_toolchain := str "beta" } (str "build") =
      some ⟨{ cfg0 with current_toolchain := str "beta" },
        [⟨str "rustup", [str "run", str "stable", str "cargo", str "build"], str "."⟩],
        [], .ok⟩ ∧
    (str "stable" == str "beta") = false := by decide

/-- C3: dispatching "++ beta build" when the spawn fails runs the nested
command as `rustup run stable cargo build` (default toolchain, not
"beta") and leaves the override at "beta": the `?` on `run`
(src/lib.rs line 225) skips the restore on the error path, so the
override is not restored. -/
theorem c3_plusplus_with_command_uses_default_and_skips_restore_on_error :
    dispatch_cmd envFail cfg0 (str "++ beta build") =
      some ⟨{ cfg0 with current_toolchain := str "beta" },
        [⟨str "rustup", [str "run", str "stable", str "cargo", str "build"], str "."⟩],
        [], .errored⟩ ∧
    cfg0.current_toolchain = str "stable" := by decide

/-- C5: a plain (default-case) line "build" dispatched while the current
override is "beta" builds the argument list
`["run", "stable", "cargo", "build"]` — the second argument is the
session default toolchain, not the current override the claim names. -/
theorem c5_plain_line_invoked_under_default_not_override :
    (dispatch_cmd envOk { cfg0 with current_toolchain := str "beta" } (str "build")).map
        (fun r => r.invocations.map Invocation.args) =
      some [[str "run", str "stable", str "cargo", str "build"]] ∧
    ({ cfg0 with current_toolchain := str "beta" } : Config).current_toolchain =
      str "beta" ∧
    (str "stable" == str "beta") = false := by decide

/-- C2 counterexample: with toolchains ["stable", "nightly"] and the
second spawn failing, dispatching "+ test" leaves the override at
"nightly": it is not restored to the prior value "stable" as the claim
requires. -/
theorem c2_counterexample_override_not_restored_on_failure :
    (dispatch_cmd envFirstOnly cfg0 (str "+ test")).map
        (fun r => r.config.current_toolchain) = some (str "nightly") ∧
    cfg0.current_toolchain = str "stable" ∧
    (str "nightly" == str "stable") = false := by decide

/-- C2 (amended): dispatching "+ A" runs one invocation per configured
toolchain in list order with the split arguments, stopping at the first
spawn failure; afterwards the override equals its prior value exactly
when every spawn succeeded — when the k-th spawn fails, the dispatch
errors out, having attempted k+1 invocations, and the override is left
at the k-th toolchain. -/
theorem c2_fanout_per_toolchain_restores_only_on_success
    (env : Env) (config : Config) (rest : List Char) (r : DispatchResult)
    (hpp : (str "++").isPrefixOf ('+' :: rest) = false)
    (hd : dispatch_cmd env config ('+' :: rest) = some r) :
    match firstFailure env 0 config.toolchains with
    | none =>
        r.config = config ∧
        r.invocations = List.replicate config.toolchains.length
          (mkInvocation config (splitSp (trimStr rest))) ∧
        r.outcome = .ok
    | some (k, t) =>
        r.config = { config with current_toolchain := t } ∧
        r.invocations = List.replicate (k + 1)
          (mkInvocation config (splitSp (trimStr rest))) ∧
        r.outcome = .errored := by
  rw [dispatch_cmd_plus env config rest hpp] at hd
  injection hd with hd
  subst hd
  rw [fanOut_spec env (splitSp (trimStr rest)) config.toolchains config
    config.current_toolchain 0]
  rcases hf : firstFailure env 0 config.toolchains with _ | ⟨k, t⟩
  · exact ⟨config_update_self config, rfl, rfl⟩
  · exact ⟨rfl, rfl, rfl⟩

/-- Concrete instantiation of the amended C2 theorem: "+ test" with both
spawns succeeding runs twice and restores the override. -/
theorem c2_fanout_per_toolchain_restores_only_on_success_witness :
    (str "++").isPrefixOf ('+' :: str " test") = false ∧
    ((⟨cfg0, List.replicate 2 (mkInvocation cfg0 [str "test"]), [],
        Outcome.ok⟩ : DispatchResult).config = cfg0 ∧
      (⟨cfg0, List.replicate 2 (mkInvocation cfg0 [str "test"]), [],
        Outcome.ok⟩ : DispatchResult).invocations =
        List.replicate cfg0.toolchains.length
          (mkInvocation cfg0 (splitSp (trimStr (str " test")))) ∧
      (⟨cfg0, List.replicate 2 (mkInvocation cfg0 [str "test"]), [],
        Outcome.ok⟩ : DispatchResult).outcome = .ok) :=
  ⟨by decide,
    c2_fanout_per_toolchain_restores_only_on_success envOk cfg0 (str " test")
      ⟨cfg0, List.replicate 2 (mkInvocation cfg0 [str "test"]), [], .ok⟩
      (by decide) (by decide)⟩

/-- C4 counterexample: the override "stable" is non-empty, yet after
dispatching the bare line "++" the override is the empty string: the
slice after "++" is empty, the first token of its split is "", and the
code stores it. -/
theorem c4_counterexample_bare_plusplus_empties_override :
    (dispatch_cmd envOk cfg0 (str "++")).map (fun r => r.config.current_toolchain) =
      some [] ∧
    cfg0.current_toolchain = str "stable" ∧
    (str "stable").isEmpty = false := by decide

/-- C4 (amended): on a trimmed line other than the bare "++", and with
every configured toolchain name non-empty, dispatch preserves the
non-emptiness of the current toolchain override. -/
theorem c4_override_nonempty_invariant
    (env : Env) (config : Config) (cmd : List Char) (r : DispatchResult)
    (htrim : trimStr cmd = cmd)
    (hnpp : cmd ≠ str "++")
    (hcur : config.current_toolchain ≠ [])
    (htc : ∀ t ∈ config.toolchains, t ≠ [])
    (hd : dispatch_cmd env config cmd = some r) :
    r.config.current_toolchain ≠ [] := by
  by_cases h1 : cmd = str "exit" ∨ cmd = str "quit"
  · rw [dispatch_cmd, if_pos h1] at hd
    injection hd with hd
    subst hd
    exact hcur
  · by_cases h2 : cmd = str "help"
    · subst h2
      rw [dispatch_cmd_help] at hd
      injection hd with hd
      subst hd
      exact hcur
    · cases h3 : (str "p ").isPrefixOf cmd with
      | true =>
        obtain ⟨t, rfl⟩ := isPrefixOf_shape h3
        rw [show str "p " ++ t = 'p' :: ' ' :: t from rfl] at hd
        rw [dispatch_cmd_p env config t] at hd
        injection hd with hd
        subst hd
        exact hcur
      | false =>
        cases h4 : (str "~").isPrefixOf cmd with
        | true =>
          obtain ⟨t, rfl⟩ := isPrefixOf_shape h4
          rw [show str "~" ++ t = '~' :: t from rfl] at hd
          rw [dispatch_cmd_tilde env config t] at hd
          injection hd with hd
          subst hd
          by_cases hw : env.hasCargoWatch = true
          · rw [if_pos hw]; exact hcur
          · rw [if_neg hw]; exact hcur
        | false =>
          cases h5 : (str "<").isPrefixOf cmd with
          | true =>
            obtain ⟨t, rfl⟩ := isPrefixOf_shape h5
            rw [show str "<" ++ t = '<' :: t from rfl] at hd
            rcases hfs : env.fs (trimStr t) with _ | lines
            · rw [dispatch_cmd_file_err env config t hfs] at hd
              injection hd with hd
              subst hd
              exact hcur
            · rw [dispatch_cmd_file env config t lines hfs] at hd
              injection hd with hd
              subst hd
              exact hcur
          | false =>
            cases h6 : (str "++").isPrefixOf cmd with
            | true =>
              obtain ⟨t, rfl⟩ := isPrefixOf_shape h6
              have hte : t ≠ [] := by
                intro ht0
                subst ht0
                exact hnpp (by simp)
              have htt : trimStr t ≠ [] := by
                intro h0
                have hall := (trimStr_eq_nil_iff t).mp h0
                rcases List.eq_nil_or_concat t with h9 | ⟨init, c, h9⟩
                · exact hte h9
                · have hwc : isWs c = true := by
                    refine hall c ?_
                    rw [h9, List.concat_eq_append]
                    exact List.mem_append_right init (List.mem_singleton_self c)
                  have hcc : str "++" ++ t = ('+' :: '+' :: init) ++ [c] := by
                    rw [h9, List.concat_eq_append, str_pp_eq]
                    simp
                  have hlast := trimmed_no_trailing_ws htrim hcc
                  rw [hwc] at hlast
                  exact Bool.noConfusion hlast
              rcases hts : trimStr t with _ | ⟨d, ds⟩
              · exact absurd hts htt
              · have hdw : isWs d = false := trimStr_head_not_ws hts
                have hdsp : ¬ d = ' ' := by
                  intro he
                  rw [he] at hdw
                  exact absurd hdw (by decide)
                obtain ⟨h0, t0, hsp, _⟩ := splitSp_cons_head hdsp ds
                have hsplit : splitSp (trimStr t) = (d :: h0) :: t0 := by
                  rw [hts]; exact hsp
                rw [show str "++" ++ t = '+' :: '+' :: t from rfl] at hd
                rw [dispatch_cmd_pp env config t (d :: h0) t0 hsplit] at hd
                injection hd with hd
                subst hd
                have hver : trimStr (d :: h0) ≠ [] := by
                  intro h0'
                  have hx := (trimStr_eq_nil_iff (d :: h0)).mp h0' d
                    (List.mem_cons_self d h0)
                  rw [hx] at hdw
                  exact Bool.noConfusion hdw
                by_cases hl : 0 < t0.length
                · by_cases hr0 : env.runOk 0 = true
                  · rw [if_pos hl, if_pos hr0]
                    exact hcur
                  · rw [if_pos hl, if_neg hr0]
                    exact hver
                · rw [if_neg hl]
                  exact hver
            | false =>
              cases h7 : (str "+").isPrefixOf cmd with
              | true =>
                obtain ⟨t, rfl⟩ := isPrefixOf_shape h7
                rw [show str "+" ++ t = '+' :: t from rfl] at hd h6
                rw [dispatch_cmd_plus env config t h6] at hd
                injection hd with hd
                subst hd
                rcases fanOut_current env (splitSp (trimStr t)) config.toolchains
                    config config.current_toolchain 0 with h8 | h8
                · rw [h8]; exact hcur
                · exact htc _ h8
              | false =>
                rw [dispatch_cmd_plain env config cmd (fun he => h1 (Or.inl he))
                  (fun he => h1 (Or.inr he)) h2 h3 h4 h5 h7] at hd
                injection hd with hd
                subst hd
                exact hcur

/-- Concrete instantiation of the amended C4 theorem at the plain line
"build". -/
theorem c4_override_nonempty_invariant_witness :
    trimStr (str "build") = str "build" ∧
    (⟨cfg0, [mkInvocation cfg0 [str "build"]], [],
      Outcome.ok⟩ : DispatchResult).config.current_toolchain ≠ [] :=
  ⟨by decide,
    c4_override_nonempty_invariant envOk cfg0 (str "build")
      ⟨cfg0, [mkInvocation cfg0 [str "build"]], [], .ok⟩
      (by decide) (by decide) (by decide) (by decide) (by decide)⟩

/-- C6: dispatching "< P" on a readable file leaves the session state
untouched, executes no invocation, and parses the lines exactly as the
source loop does: lines empty after trimming or starting with `#` are
skipped, every other line is split on single spaces. -/
theorem c6_batch_lines_parsed_skipped_never_executed :
    (∀ (env : Env) (config : Config) (rest : List Char) (lines : List (List Char))
        (r : DispatchResult),
      env.fs (trimStr rest) = some lines →
      dispatch_cmd env config ('<' :: rest) = some r →
      r.config = config ∧ r.invocations = [] ∧ r.batch = processBatch lines) ∧
    (∀ (line : List Char) (ls : List (List Char)),
      trimStr line = [] ∨ (str "#").isPrefixOf (trimStr line) = true →
      processBatch (line :: ls) = processBatch ls) ∧
    (∀ (line : List Char) (ls : List (List Char)),
      trimStr line ≠ [] → (str "#").isPrefixOf (trimStr line) = false →
      processBatch (line :: ls) = splitSp (trimStr line) :: processBatch ls) ∧
    processBatch [str "", str "# comment", str "   ", str "build --release"] =
      [[str "build", str "--release"]] := by
  refine ⟨?_, ?_, ?_, by decide⟩
  · intro env config rest lines r hfs hd
    rw [dispatch_cmd_file env config rest lines hfs] at hd
    injection hd with hd
    subst hd
    exact ⟨rfl, rfl, rfl⟩
  · intro line ls h
    rcases h with h | h <;> simp [processBatch, h]
  · intro line ls h1 h2
    simp [processBatch, h1, h2]

/-- Concrete instantiation of the C6 theorem on the file cmds.txt. -/
theorem c6_batch_lines_parsed_skipped_never_executed_witness :
    envBatch.fs (trimStr (str " cmds.txt")) = some [str "build --release"] ∧
    ((⟨cfg0, [], [[str "build", str "--release"]],
        Outcome.ok⟩ : DispatchResult).config = cfg0 ∧
      (⟨cfg0, [], [[str "build", str "--release"]],
        Outcome.ok⟩ : DispatchResult).invocations = [] ∧
      (⟨cfg0, [], [[str "build", str "--release"]],
        Outcome.ok⟩ : DispatchResult).batch =
        processBatch [str "build --release"]) :=
  ⟨by decide,
    c6_batch_lines_parsed_skipped_never_executed.1 envBatch cfg0 (str " cmds.txt")
      [str "build --release"]
      ⟨cfg0, [], [[str "build", str "--release"]], .ok⟩
      (by decide) (by decide)⟩

/-- A brace-free segment scrolls past the scanner unchanged. -/
theorem replScan_lit (p rep : List Char) :
    ∀ s₁ : List Char, (∀ c ∈ s₁, c ≠ lbrace) → ∀ rest : List Char,
      replScan (lbrace :: p) rep 0 (s₁ ++ rest) =
        s₁ ++ replScan (lbrace :: p) rep 0 rest := by
  intro s₁
  induction s₁ with
  | nil => intro _ rest; rfl
  | cons c t ih =>
    intro hc rest
    have hc0 : c ≠ lbrace := hc c (List.mem_cons_self c t)
    have hne2 : (lbrace :: p).isPrefixOf (c :: (t ++ rest)) = false := by
      simp [List.isPrefixOf]
      intro h
      exact absurd h.symm hc0
    have hct : ∀ x ∈ t, x ≠ lbrace := fun x hx => hc x (List.mem_cons_of_mem c hx)
    calc replScan (lbrace :: p) rep 0 ((c :: t) ++ rest)
        = replScan (lbrace :: p) rep 0 (c :: (t ++ rest)) := rfl
      _ = c :: replScan (lbrace :: p) rep 0 (t ++ rest) := by
          rw [show replScan (lbrace :: p) rep 0 (c :: (t ++ rest)) =
            if (lbrace :: p).isPrefixOf (c :: (t ++ rest)) then
              rep ++ replScan (lbrace :: p) rep ((lbrace :: p).length - 1) (t ++ rest)
            else c :: replScan (lbrace :: p) rep 0 (t ++ rest) from rfl]
          rw [if_neg (by rw [hne2]; exact Bool.false_ne_true)]
      _ = c :: (t ++ replScan (lbrace :: p) rep 0 rest) := by rw [ih hct rest]
      _ = (c :: t) ++ replScan (lbrace :: p) rep 0 rest := rfl

/-- The scanner for one placeholder walks over a different placeholder
(same opening brace, different second character, brace-free tail)
without replacing anything in it. -/
theorem replScan_skip_other (c₁ c₂ : Char) (p₁ q rep : List Char)
    (hne : ¬ c₁ = c₂) (hq : ∀ c ∈ c₂ :: q, c ≠ lbrace) (rest : List Char) :
    replScan (lbrace :: c₁ :: p₁) rep 0 ((lbrace :: c₂ :: q) ++ rest) =
      (lbrace :: c₂ :: q) ++ replScan (lbrace :: c₁ :: p₁) rep 0 rest := by
  have hpre : (lbrace :: c₁ :: p₁).isPrefixOf (lbrace :: c₂ :: (q ++ rest)) = false := by
    have hb : (c₁ == c₂) = false := by
      cases hb2 : c₁ == c₂ with
      | false => rfl
      | true => exact absurd (beq_iff_eq.mp hb2) hne
    rw [show (lbrace :: c₁ :: p₁).isPrefixOf (lbrace :: c₂ :: (q ++ rest)) =
      ((lbrace == lbrace) && ((c₁ == c₂) && p₁.isPrefixOf (q ++ rest))) from rfl]
    rw [hb]
    simp
  calc replScan (lbrace :: c₁ :: p₁) rep 0 ((lbrace :: c₂ :: q) ++ rest)
      = replScan (lbrace :: c₁ :: p₁) rep 0 (lbrace :: c₂ :: (q ++ rest)) := rfl
    _ = lbrace :: replScan (lbrace :: c₁ :: p₁) rep 0 (c₂ :: (q ++ rest)) := by
        rw [show replScan (lbrace :: c₁ :: p₁) rep 0 (lbrace :: c₂ :: (q ++ rest)) =
          if (lbrace :: c₁ :: p₁).isPrefixOf (lbrace :: c₂ :: (q ++ rest)) then
            rep ++ replScan (lbrace :: c₁ :: p₁) rep ((lbrace :: c₁ :: p₁).length - 1)
              (c₂ :: (q ++ rest))
          else lbrace :: replScan (lbrace :: c₁ :: p₁) rep 0 (c₂ :: (q ++ rest))
          from rfl]
        rw [if_neg (by rw [hpre]; exact Bool.false_ne_true)]
    _ = lbrace :: ((c₂ :: q) ++ replScan (lbrace :: c₁ :: p₁) rep 0 rest) := by
        rw [show (c₂ :: (q ++ rest)) = ((c₂ :: q) ++ rest) from rfl]
        rw [replScan_lit (c₁ :: p₁) rep (c₂ :: q) hq rest]
    _ = (lbrace :: c₂ :: q) ++ replScan (lbrace :: c₁ :: p₁) rep 0 rest := rfl

/-- Segment of a prompt template: literal text or one of the three
recognized placeholders. -/
inductive Seg where
  | lit : List Char → Seg
  | project : Seg
  | version : Seg
  | toolchain : Seg
deriving DecidableEq

/-- Interpret every segment with `f` and concatenate the pieces. -/
def flattenSegs (f : Seg → List Char) : List Seg → List Char
  | [] => []
  | s :: rest => f s ++ flattenSegs f rest

/-- Replace the three placeholder segments by the given values and keep
literal segments; applied to the three placeholder texts themselves it
rebuilds the template. -/
def substSeg (nm ver tc : List Char) : Seg → List Char
  | .lit s => s
  | .project => nm
  | .version => ver
  | .toolchain => tc

/-- A segment is admissible when its literal text contains no opening
brace. -/
def segOk : Seg → Bool
  | .lit s => s.all (fun c => c != lbrace)
  | _ => true

/-- One replacement pass over a flattened segment list: segments whose
text is brace-free scroll through, the pattern's own placeholder is
replaced by `rep`, and placeholders opening with a different second
character are untouched. -/
theorem replScan_segs (c₁ : Char) (p₁ rep : List Char) (f g : Seg → List Char) :
    ∀ segs : List Seg,
      (∀ seg ∈ segs,
        ((∀ c ∈ f seg, c ≠ lbrace) ∧ g seg = f seg) ∨
        (f seg = lbrace :: c₁ :: p₁ ∧ g seg = rep) ∨
        (∃ c₂ q, f seg = lbrace :: c₂ :: q ∧ ¬ c₁ = c₂ ∧
          (∀ c ∈ c₂ :: q, c ≠ lbrace) ∧ g seg = f seg)) →
      replScan (lbrace :: c₁ :: p₁) rep 0 (flattenSegs f segs) = flattenSegs g segs := by
  intro segs
  induction segs with
  | nil => intro _; rfl
  | cons seg rest ih =>
    intro hfg
    have hrest := ih (fun s hs => hfg s (List.mem_cons_of_mem seg hs))
    rcases hfg seg (List.mem_cons_self seg rest) with
      ⟨hbf, hg⟩ | ⟨hf, hg⟩ | ⟨c₂, q, hf, hne, hq, hg⟩
    · simp only [flattenSegs]
      rw [replScan_lit (c₁ :: p₁) rep (f seg) hbf (flattenSegs f rest), hrest, hg]
    · simp only [flattenSegs, hf, hg]
      have hm := replScan_match (c₁ :: p₁) rep [] (by simp) (flattenSegs f rest)
      simp only [List.nil_append] at hm
      rw [hm, hrest]
    · simp only [flattenSegs, hf, hg]
      rw [replScan_skip_other c₁ c₂ p₁ q rep hne hq (flattenSegs f rest), hrest]

/-- Fixture for the C7 counterexample: the template is the project
placeholder alone and the project name is the version placeholder
text. -/
def cfgResub : Config :=
  { cfg0 with
    prompt := str "{project}"
    name := str "{version}"
    version := str "9"
    current_toolchain := str "t" }

/-- C7 counterexample: the claim as stated fails on the code, because the
three replace calls are sequential.  On `cfgResub` the rendered prompt
is "9": the second pass re-substitutes inside the inserted name, so the
occurrence of the project placeholder is not replaced by the project
name verbatim and the surrounding-text-unchanged reading of the claim
is violated. -/
theorem c7_counterexample_sequential_resubstitution :
    Config.get_prompt cfgResub = str "9" ∧
    cfgResub.name = str "{version}" ∧
    (str "9" == str "{version}") = false := by decide

/-- C7 (amended): `get_prompt` substitutes by three sequential
replace-all passes in the order `\x7bproject\x7d`, `\x7bversion\x7d`,
`\x7btoolchain\x7d`.  The documented example renders as specified; a
template containing no occurrence of any of the three placeholders
(unrecognized placeholders included) is returned unchanged; and for
every template interleaving brace-free literal text with the three
placeholders — each any number of times, in any order — and brace-free
substituted values, every occurrence of each placeholder is replaced by
the respective current value and all other text is left unchanged.
Values containing a later placeholder are re-substituted by the later
passes, the case the counterexample excludes. -/
theorem c7_sequential_render_substitutes_brace_free_segments :
    (Config.get_prompt { cfg0 with
        prompt := str "{project}@{toolchain} ({version})"
        name := str "foo"
        version := str "1.2"
        current_toolchain := str "nightly" } = str "foo@nightly (1.2)") ∧
    (∀ config : Config,
      ¬ (str "{project}" <:+: config.prompt) →
      ¬ (str "{version}" <:+: config.prompt) →
      ¬ (str "{toolchain}" <:+: config.prompt) →
      config.get_prompt = config.prompt) ∧
    (∀ (config : Config) (segs : List Seg),
      config.prompt = flattenSegs
        (substSeg (str "{project}") (str "{version}") (str "{toolchain}")) segs →
      segs.all segOk = true →
      (∀ c ∈ config.name, c ≠ lbrace) →
      (∀ c ∈ config.version, c ≠ lbrace) →
      (∀ c ∈ config.current_toolchain, c ≠ lbrace) →
      config.get_prompt = flattenSegs
        (substSeg config.name config.version config.current_toolchain) segs) := by
  refine ⟨by decide, ?_, ?_⟩
  · intro config h1 h2 h3
    simp only [Config.get_prompt, replaceAll]
    rw [replScan_no_occurrence config.name config.prompt h1,
      replScan_no_occurrence config.version config.prompt h2,
      replScan_no_occurrence config.current_toolchain config.prompt h3]
  · intro config segs hp hall hn hv ht
    have hlit : ∀ s : List Char, Seg.lit s ∈ segs → ∀ c ∈ s, c ≠ lbrace := by
      intro s hmem c hc
      have hs : segOk (Seg.lit s) = true := List.all_eq_true.mp hall (Seg.lit s) hmem
      simp only [segOk] at hs
      exact bne_iff_ne.mp (List.all_eq_true.mp hs c hc)
    have hfg1 : ∀ seg ∈ segs,
        ((∀ c ∈ substSeg (str "{project}") (str "{version}") (str "{toolchain}") seg,
            c ≠ lbrace) ∧
          substSeg config.name (str "{version}") (str "{toolchain}") seg =
            substSeg (str "{project}") (str "{version}") (str "{toolchain}") seg) ∨
        (substSeg (str "{project}") (str "{version}") (str "{toolchain}") seg =
            lbrace :: 'p' :: ('r' :: 'o' :: 'j' :: 'e' :: 'c' :: 't' :: [rbrace]) ∧
          substSeg config.name (str "{version}") (str "{toolchain}") seg =
            config.name) ∨
        (∃ c₂ q,
          substSeg (str "{project}") (str "{version}") (str "{toolchain}") seg =
            lbrace :: c₂ :: q ∧ ¬ 'p' = c₂ ∧ (∀ c ∈ c₂ :: q, c ≠ lbrace) ∧
          substSeg config.name (str "{version}") (str "{toolchain}") seg =
            substSeg (str "{project}") (str "{version}") (str "{toolchain}") seg) := by
      intro seg hmem
      cases seg with
      | lit s => exact Or.inl ⟨hlit s hmem, rfl⟩
      | project => exact Or.inr (Or.inl ⟨rfl, rfl⟩)
      | version =>
        exact Or.inr (Or.inr ⟨'v', 'e' :: 'r' :: 's' :: 'i' :: 'o' :: 'n' :: [rbrace],
          rfl, by decide, by decide, rfl⟩)
      | toolchain =>
        exact Or.inr (Or.inr ⟨'t', 'o' :: 'o' :: 'l' :: 'c' :: 'h' :: 'a' :: 'i' :: 'n'
          :: [rbrace], rfl, by decide, by decide, rfl⟩)
    have e1 : replScan (str "{project}") config.name 0
        (flattenSegs
          (substSeg (str "{project}") (str "{version}") (str "{toolchain}")) segs) =
        flattenSegs (substSeg config.name (str "{version}") (str "{toolchain}")) segs :=
      replScan_segs 'p' ('r' :: 'o' :: 'j' :: 'e' :: 'c' :: 't' :: [rbrace]) config.name
        (substSeg (str "{project}") (str "{version}") (str "{toolchain}"))
        (substSeg config.name (str "{version}") (str "{toolchain}")) segs hfg1
    have hfg2 : ∀ seg ∈ segs,
        ((∀ c ∈ substSeg config.name (str "{version}") (str "{toolchain}") seg,
            c ≠ lbrace) ∧
          substSeg config.name config.version (str "{toolchain}") seg =
            substSeg config.name (str "{version}") (str "{toolchain}") seg) ∨
        (substSeg config.name (str "{version}") (str "{toolchain}") seg =
            lbrace :: 'v' :: ('e' :: 'r' :: 's' :: 'i' :: 'o' :: 'n' :: [rbrace]) ∧
          substSeg config.name config.version (str "{toolchain}") seg =
            config.version) ∨
        (∃ c₂ q,
          substSeg config.name (str "{version}") (str "{toolchain}") seg =
            lbrace :: c₂ :: q ∧ ¬ 'v' = c₂ ∧ (∀ c ∈ c₂ :: q, c ≠ lbrace) ∧
          substSeg config.name config.version (str "{toolchain}") seg =
            substSeg config.name (str "{version}") (str "{toolchain}") seg) := by
      intro seg hmem
      cases seg with
      | lit s => exact Or.inl ⟨hlit s hmem, rfl⟩
      | project => exact Or.inl ⟨hn, rfl⟩
      | version => exact Or.inr (Or.inl ⟨rfl, rfl⟩)
      | toolchain =>
        exact Or.inr (Or.inr ⟨'t', 'o' :: 'o' :: 'l' :: 'c' :: 'h' :: 'a' :: 'i' :: 'n'
          :: [rbrace], rfl, by decide, by decide, rfl⟩)
    have e2 : replScan (str "{version}") config.version 0
        (flattenSegs (substSeg config.name (str "{version}") (str "{toolchain}")) segs) =
        flattenSegs (substSeg config.name config.version (str "{toolchain}")) segs :=
      replScan_segs 'v' ('e' :: 'r' :: 's' :: 'i' :: 'o' :: 'n' :: [rbrace])
        config.version
        (substSeg config.name (str "{version}") (str "{toolchain}"))
        (substSeg config.name config.version (str "{toolchain}")) segs hfg2
    have hfg3 : ∀ seg ∈ segs,
        ((∀ c ∈ substSeg config.name config.version (str "{toolchain}") seg,
            c ≠ lbrace) ∧
          substSeg config.name config.version config.current_toolchain seg =
            substSeg config.name config.version (str "{toolchain}") seg) ∨
        (substSeg config.name config.version (str "{toolchain}") seg =
            lbrace :: 't' :: ('o' :: 'o' :: 'l' :: 'c' :: 'h' :: 'a' :: 'i' :: 'n'
              :: [rbrace]) ∧
          substSeg config.name config.version config.current_toolchain seg =
            config.current_toolchain) ∨
        (∃ c₂ q,
          substSeg config.name config.version (str "{toolchain}") seg =
            lbrace :: c₂ :: q ∧ ¬ 't' = c₂ ∧ (∀ c ∈ c₂ :: q, c ≠ lbrace) ∧
          substSeg config.name config.version config.current_toolchain seg =
            substSeg config.name config.version (str "{toolchain}") seg) := by
      intro seg hmem
      cases seg with
      | lit s => exact Or.inl ⟨hlit s hmem, rfl⟩
      | project => exact Or.inl ⟨hn, rfl⟩
      | version => exact Or.inl ⟨hv, rfl⟩
      | toolchain => exact Or.inr (Or.inl ⟨rfl, rfl⟩)
    have e3 : replScan (str "{toolchain}") config.current_toolchain 0
        (flattenSegs (substSeg config.name config.version (str "{toolchain}")) segs) =
        flattenSegs
          (substSeg config.name config.version config.current_toolchain) segs :=
      replScan_segs 't' ('o' :: 'o' :: 'l' :: 'c' :: 'h' :: 'a' :: 'i' :: 'n'
          :: [rbrace]) config.current_toolchain
        (substSeg config.name config.version (str "{toolchain}"))
        (substSeg config.name config.version config.current_toolchain) segs hfg3
    simp only [Config.get_prompt, replaceAll, hp]
    rw [e1, e2, e3]

/-- Witness fixture: a template interleaving literal text with all three
placeholders. -/
def segsW : List Seg :=
  [Seg.lit (str "a "), Seg.project, Seg.lit (str "-"), Seg.version,
    Seg.lit (str "-"), Seg.toolchain, Seg.lit (str " z")]

/-- Witness fixture: session state whose prompt template is the
flattening of `segsW`. -/
def cfgSegsW : Config :=
  { cfg0 with
    prompt := flattenSegs
      (substSeg (str "{project}") (str "{version}") (str "{toolchain}")) segsW }

/-- Concrete instantiation of the amended C7 theorem on a template using
all three placeholders between literal text. -/
theorem c7_sequential_render_substitutes_brace_free_segments_witness :
    segsW.all segOk = true ∧
    Config.get_prompt cfgSegsW =
      flattenSegs
        (substSeg cfgSegsW.name cfgSegsW.version cfgSegsW.current_toolchain) segsW :=
  ⟨by decide,
    c7_sequential_render_substitutes_brace_free_segments.2.2 cfgSegsW segsW
      rfl (by decide) (by decide) (by decide) (by decide)⟩

/-- C8: every invocation the dispatcher attempts passes the session
default toolchain as the toolchain argument of
`rustup run <toolchain> cargo ...`, and changing the current toolchain
override never changes the invocations a dispatch attempts. -/
theorem c8_invocations_always_use_default_toolchain :
    (∀ (env : Env) (config : Config) (cmd : List Char) (r : DispatchResult),
      dispatch_cmd env config cmd = some r →
      ∀ inv ∈ r.invocations, ∃ tailArgs,
        inv.args = str "run" :: config.default_toolchain :: str "cargo" :: tailArgs) ∧
    (∀ (env : Env) (config : Config) (t cmd : List Char),
      (dispatch_cmd env { config with current_toolchain := t } cmd).map
        DispatchResult.invocations =
      (dispatch_cmd env config cmd).map DispatchResult.invocations) := by
  constructor
  · intro env config cmd r hd inv hmem
    by_cases h1 : cmd = str "exit" ∨ cmd = str "quit"
    · rw [dispatch_cmd, if_pos h1] at hd
      injection hd with hd
      subst hd
      simp at hmem
    · by_cases h2 : cmd = str "help"
      · subst h2
        rw [dispatch_cmd_help] at hd
        injection hd with hd
        subst hd
        simp at hmem
      · cases h3 : (str "p ").isPrefixOf cmd with
        | true =>
          obtain ⟨u, rfl⟩ := isPrefixOf_shape h3
          rw [show str "p " ++ u = 'p' :: ' ' :: u from rfl] at hd
          rw [dispatch_cmd_p env config u] at hd
          injection hd with hd
          subst hd
          simp at hmem
        | false =>
          cases h4 : (str "~").isPrefixOf cmd with
          | true =>
            obtain ⟨u, rfl⟩ := isPrefixOf_shape h4
            rw [show str "~" ++ u = '~' :: u from rfl] at hd
            rw [dispatch_cmd_tilde env config u] at hd
            injection hd with hd
            subst hd
            by_cases hw : env.hasCargoWatch = true
            · rw [if_pos hw] at hmem
              simp at hmem
              subst hmem
              exact ⟨_, rfl⟩
            · rw [if_neg hw] at hmem
              simp at hmem
          | false =>
            cases h5 : (str "<").isPrefixOf cmd with
            | true =>
              obtain ⟨u, rfl⟩ := isPrefixOf_shape h5
              rw [show str "<" ++ u = '<' :: u from rfl] at hd
              rcases hfs : env.fs (trimStr u) with _ | lines
              · rw [dispatch_cmd_file_err env config u hfs] at hd
                injection hd with hd
                subst hd
                simp at hmem
              · rw [dispatch_cmd_file env config u lines hfs] at hd
                injection hd with hd
                subst hd
                simp at hmem
            | false =>
              cases h6 : (str "++").isPrefixOf cmd with
              | true =>
                obtain ⟨u, rfl⟩ := isPrefixOf_shape h6
                rcases hts : splitSp (trimStr u) with _ | ⟨p0, ps⟩
                · exact absurd hts (splitSp_ne_nil (trimStr u))
                · rw [show str "++" ++ u = '+' :: '+' :: u from rfl] at hd
                  rw [dispatch_cmd_pp env config u p0 ps hts] at hd
                  injection hd with hd
                  subst hd
                  by_cases hl : 0 < ps.length
                  · by_cases hr0 : env.runOk 0 = true
                    · rw [if_pos hl, if_pos hr0] at hmem
                      simp at hmem
                      subst hmem
                      exact ⟨_, rfl⟩
                    · rw [if_pos hl, if_neg hr0] at hmem
                      simp at hmem
                      subst hmem
                      exact ⟨_, rfl⟩
                  · rw [if_neg hl] at hmem
                    simp at hmem
              | false =>
                cases h7 : (str "+").isPrefixOf cmd with
                | true =>
                  obtain ⟨u, rfl⟩ := isPrefixOf_shape h7
                  rw [show str "+" ++ u = '+' :: u from rfl] at hd h6
                  rw [dispatch_cmd_plus env config u h6] at hd
                  injection hd with hd
                  subst hd
                  have hshape := fanOut_invocations_shape env (splitSp (trimStr u))
                    config.toolchains config config.current_toolchain 0 inv hmem
                  rw [hshape]
                  exact ⟨_, rfl⟩
                | false =>
                  rw [dispatch_cmd_plain env config cmd (fun he => h1 (Or.inl he))
                    (fun he => h1 (Or.inr he)) h2 h3 h4 h5 h7] at hd
                  injection hd with hd
                  subst hd
                  simp at hmem
                  subst hmem
                  exact ⟨_, rfl⟩
  · intro env config t cmd
    by_cases h1 : cmd = str "exit" ∨ cmd = str "quit"
    · simp [dispatch_cmd, h1]
    · by_cases h2 : cmd = str "help"
      · subst h2
        rw [dispatch_cmd_help, dispatch_cmd_help]
        rfl
      · cases h3 : (str "p ").isPrefixOf cmd with
        | true =>
          obtain ⟨u, rfl⟩ := isPrefixOf_shape h3
          rw [show str "p " ++ u = 'p' :: ' ' :: u from rfl]
          rw [dispatch_cmd_p env { config with current_toolchain := t } u,
            dispatch_cmd_p env config u]
          rfl
        | false =>
          cases h4 : (str "~").isPrefixOf cmd with
          | true =>
            obtain ⟨u, rfl⟩ := isPrefixOf_shape h4
            rw [show str "~" ++ u = '~' :: u from rfl]
            rw [dispatch_cmd_tilde env { config with current_toolchain := t } u,
              dispatch_cmd_tilde env config u]
            by_cases hw : env.hasCargoWatch = true
            · rw [if_pos hw, if_pos hw]
              rfl
            · rw [if_neg hw, if_neg hw]
              rfl
          | false =>
            cases h5 : (str "<").isPrefixOf cmd with
            | true =>
              obtain ⟨u, rfl⟩ := isPrefixOf_shape h5
              rw [show str "<" ++ u = '<' :: u from rfl]
              rcases hfs : env.fs (trimStr u) with _ | lines
              · rw [dispatch_cmd_file_err env { config with current_toolchain := t } u hfs,
                  dispatch_cmd_file_err env config u hfs]
                rfl
              · rw [dispatch_cmd_file env { config with current_toolchain := t } u lines hfs,
                  dispatch_cmd_file env config u lines hfs]
                rfl
            | false =>
              cases h6 : (str "++").isPrefixOf cmd with
              | true =>
                obtain ⟨u, rfl⟩ := isPrefixOf_shape h6
                rcases hts : splitSp (trimStr u) with _ | ⟨p0, ps⟩
                · exact absurd hts (splitSp_ne_nil (trimStr u))
                · rw [show str "++" ++ u = '+' :: '+' :: u from rfl]
                  rw [dispatch_cmd_pp env { config with current_toolchain := t } u p0 ps hts,
                    dispatch_cmd_pp env config u p0 ps hts]
                  by_cases hl : 0 < ps.length
                  · by_cases hr0 : env.runOk 0 = true <;>
                      simp [hl, hr0, mkInvocation_current, config_update_update]
                  · simp [hl]
              | false =>
                cases h7 : (str "+").isPrefixOf cmd with
                | true =>
                  obtain ⟨u, rfl⟩ := isPrefixOf_shape h7
                  rw [show str "+" ++ u = '+' :: u from rfl] at h6 ⊢
                  rw [dispatch_cmd_plus env { config with current_toolchain := t } u h6,
                    dispatch_cmd_plus env config u h6]
                  simp only [Option.map_some']
                  rw [show fanOut env config config.current_toolchain
                      (splitSp (trimStr u)) config.toolchains 0 =
                    fanOut env { config with current_toolchain := config.current_toolchain }
                      config.current_toolchain (splitSp (trimStr u)) config.toolchains 0
                    from by rw [config_update_self]]
                  exact congrArg some (fanOut_invocations_congr env (splitSp (trimStr u))
                    config.toolchains config t config.current_toolchain t
                    config.current_toolchain 0)
                | false =>
                  rw [dispatch_cmd_plain env { config with current_toolchain := t } cmd
                    (fun he => h1 (Or.inl he)) (fun he => h1 (Or.inr he)) h2 h3 h4 h5 h7,
                    dispatch_cmd_plain env config cmd (fun he => h1 (Or.inl he))
                    (fun he => h1 (Or.inr he)) h2 h3 h4 h5 h7]
                  simp [mkInvocation_current]

/-- Concrete instantiation of the C8 theorem at the plain line
"build". -/
theorem c8_invocations_always_use_default_toolchain_witness :
    ∃ tailArgs,
      (⟨str "rustup", [str "run", str "stable", str "cargo", str "build"],
        str "."⟩ : Invocation).args =
        str "run" :: cfg0.default_toolchain :: str "cargo" :: tailArgs :=
  c8_invocations_always_use_default_toolchain.1 envOk cfg0 (str "build")
    ⟨cfg0, [⟨str "rustup", [str "run", str "stable", str "cargo", str "build"], str "."⟩],
      [], .ok⟩
    (by decide)
    ⟨str "rustup", [str "run", str "stable", str "cargo", str "build"], str "."⟩
    (by decide)

/-- C9: a dispatch of `help`, of a `~` line, or of a plain (default-case)
line returns the session state unchanged, whatever the spawn
outcomes. -/
theorem c9_help_watch_plain_leave_session_state_unchanged
    (env : Env) (config : Config) (cmd : List Char) (r : DispatchResult)
    (hd : dispatch_cmd env config cmd = some r)
    (hcase : cmd = str "help" ∨ (str "~").isPrefixOf cmd = true ∨
      (cmd ≠ str "exit" ∧ cmd ≠ str "quit" ∧ cmd ≠ str "help" ∧
       (str "p ").isPrefixOf cmd = false ∧ (str "~").isPrefixOf cmd = false ∧
       (str "<").isPrefixOf cmd = false ∧ (str "+").isPrefixOf cmd = false)) :
    r.config = config := by
  rcases hcase with hc | hc | ⟨n1, n2, n3, n4, n5, n6, n7⟩
  · subst hc
    rw [dispatch_cmd_help] at hd
    injection hd with hd
    subst hd
    rfl
  · obtain ⟨u, rfl⟩ := isPrefixOf_shape hc
    rw [show str "~" ++ u = '~' :: u from rfl] at hd
    rw [dispatch_cmd_tilde env config u] at hd
    injection hd with hd
    subst hd
    by_cases hw : env.hasCargoWatch = true
    · rw [if_pos hw]
    · rw [if_neg hw]
  · rw [dispatch_cmd_plain env config cmd n1 n2 n3 n4 n5 n6 n7] at hd
    injection hd with hd
    subst hd
    rfl

/-- Concrete instantiation of the C9 theorem at `help`. -/
theorem c9_help_watch_plain_leave_session_state_unchanged_witness :
    (⟨cfg0, [], [], Outcome.ok⟩ : DispatchResult).config = cfg0 :=
  c9_help_watch_plain_leave_session_state_unchanged envOk cfg0 (str "help")
    ⟨cfg0, [], [], .ok⟩ (by decide) (Or.inl rfl)

/-- C10: the dispatcher never goes out of bounds: every slice taken
after a successful prefix match is in range and `parts[0]` always
exists, so the checked model returns a result on every input; and
splitting any string yields at least one token. -/
theorem c10_slicing_and_indexing_never_fail :
    (∀ (env : Env) (config : Config) (cmd : List Char),
      (dispatch_cmd env config cmd).isSome = true) ∧
    (∀ l : List Char, (splitSp l).isEmpty = false) := by
  constructor
  · intro env config cmd
    by_cases h1 : cmd = str "exit" ∨ cmd = str "quit"
    · rw [dispatch_cmd, if_pos h1]
      rfl
    · by_cases h2 : cmd = str "help"
      · subst h2
        rw [dispatch_cmd_help]
        rfl
      · cases h3 : (str "p ").isPrefixOf cmd with
        | true =>
          obtain ⟨u, rfl⟩ := isPrefixOf_shape h3
          rw [show str "p " ++ u = 'p' :: ' ' :: u from rfl]
          rw [dispatch_cmd_p env config u]
          rfl
        | false =>
          cases h4 : (str "~").isPrefixOf cmd with
          | true =>
            obtain ⟨u, rfl⟩ := isPrefixOf_shape h4
            rw [show str "~" ++ u = '~' :: u from rfl]
            rw [dispatch_cmd_tilde env config u]
            rfl
          | false =>
            cases h5 : (str "<").isPrefixOf cmd with
            | true =>
              obtain ⟨u, rfl⟩ := isPrefixOf_shape h5
              rw [show str "<" ++ u = '<' :: u from rfl]
              rcases hfs : env.fs (trimStr u) with _ | lines
              · rw [dispatch_cmd_file_err env config u hfs]
                rfl
              · rw [dispatch_cmd_file env config u lines hfs]
                rfl
            | false =>
              cases h6 : (str "++").isPrefixOf cmd with
              | true =>
                obtain ⟨u, rfl⟩ := isPrefixOf_shape h6
                rcases hts : splitSp (trimStr u) with _ | ⟨p0, ps⟩
                · exact absurd hts (splitSp_ne_nil (trimStr u))
                · rw [show str "++" ++ u = '+' :: '+' :: u from rfl]
                  rw [dispatch_cmd_pp env config u p0 ps hts]
                  rfl
              | false =>
                cases h7 : (str "+").isPrefixOf cmd with
                | true =>
                  obtain ⟨u, rfl⟩ := isPrefixOf_shape h7
                  rw [show str "+" ++ u = '+' :: u from rfl] at h6 ⊢
                  rw [dispatch_cmd_plus env config u h6]
                  rfl
                | false =>
                  rw [dispatch_cmd_plain env config cmd (fun he => h1 (Or.inl he))
                    (fun he => h1 (Or.inr he)) h2 h3 h4 h5 h7]
                  rfl
  · intro l
    rcases hs : splitSp l with _ | ⟨h, t⟩
    · exact absurd hs (splitSp_ne_nil l)
    · rfl

end CargoShell
